import Mathlib

/-!
Shallow embedding of `src/mdbook_indexer/src/lib.rs` (module `indexer_lib`),
an mdBook preprocessor that turns `#tag` and `@mention` markers into links
and appends two generated index chapters.

Strings are modelled as Lean `String` (a wrapper around `List Char`);
Rust `HashMap<String, Vec<String>>` is modelled as an insertion-ordered
association list (`IndexTable`), which fixes one concrete iteration order
for `generate_index` (Rust's `HashMap` iteration order is unspecified).
-/

set_option maxRecDepth 100000

namespace indexer_lib

/-- Model of Rust `char::is_ascii_punctuation`: the four ASCII punctuation
blocks U+0021-U+002F, U+003A-U+0040, U+005B-U+0060, U+007B-U+007E. -/
def isAsciiPunctuation (c : Char) : Bool :=
  let n := c.toNat
  (33 ≤ n && n ≤ 47) || (58 ≤ n && n ≤ 64) || (91 ≤ n && n ≤ 96) || (123 ≤ n && n ≤ 126)

/-- Model of Rust `char::is_whitespace`: the Unicode White_Space code points. -/
def isRustWhitespace (c : Char) : Bool :=
  let n := c.toNat
  (9 ≤ n && n ≤ 13) || n == 32 || n == 133 || n == 160 || n == 5760 ||
    (8192 ≤ n && n ≤ 8202) || n == 8232 || n == 8233 || n == 8239 || n == 8287 || n == 12288

/-- The split predicate of `extract_prefix_items` (lib.rs line 85):
a character is a separator when it is whitespace, or is ASCII punctuation
different from the marker prefix character. -/
def sepChar (pfx c : Char) : Bool :=
  isRustWhitespace c || (c != pfx && isAsciiPunctuation c)

/-- Model of Rust `str::split` with a `char`-predicate pattern: splits at every
separator character, keeping empty pieces between adjacent separators and at
both ends (`"".split` yields one empty piece). -/
def splitOnPred (p : Char → Bool) : List Char → List (List Char)
  | [] => [[]]
  | c :: rest =>
    if p c then
      [] :: splitOnPred p rest
    else
      let ws := splitOnPred p rest
      (c :: ws.headD []) :: ws.tail

/-- Model of Rust `str::strip_prefix(char)` composed with the non-empty filter
of `extract_prefix_items` (lib.rs lines 87-89): a word is kept iff it starts
with the prefix character and stripping that single leading character leaves a
non-empty remainder, which is the marker name. -/
def candidateName (pfx : Char) (word : List Char) : Option (List Char) :=
  match word with
  | [] => none
  | c :: rest => if c = pfx ∧ rest ≠ [] then some rest else none

/-- `extract_prefix_items` (lib.rs lines 84-92): split the text on whitespace
and non-prefix ASCII punctuation, then keep, in order and with duplicates, the
non-empty remainders of words starting with the prefix character. -/
def extract_prefix_items (text : String) (pfx : Char) : List String :=
  (splitOnPred (sepChar pfx) text.data).filterMap
    (fun word => (candidateName pfx word).map String.mk)

/-- Model of Rust `str::replace`: replace every leftmost non-overlapping
occurrence of `pat` in the text by `rep`, scanning left to right and not
rescanning replacement text.  The `fuel` argument makes the recursion
structural; it is initialised to the text length, which always suffices
because every step consumes at least one character (the callers always pass a
non-empty `pat`; an empty `pat` here leaves the text unchanged, whereas Rust
would interleave `rep` everywhere — that case is never exercised). -/
def replaceAllAux (pat rep : List Char) : Nat → List Char → List Char
  | 0, s => s
  | _ + 1, [] => []
  | fuel + 1, c :: rest =>
    if pat.isPrefixOf (c :: rest) ∧ pat ≠ [] then
      rep ++ replaceAllAux pat rep fuel ((c :: rest).drop pat.length)
    else
      c :: replaceAllAux pat rep fuel rest

/-- String-level wrapper for `replaceAllAux`: the model of Rust
`content.replace(pat, rep)`. -/
def strReplace (s pat rep : String) : String :=
  String.mk (replaceAllAux pat.data rep.data s.data.length s.data)

/-- The tag link text built at lib.rs line 65: `[#tag](tags.md#tag)`. -/
def tag_link (tag : String) : String :=
  "[#" ++ tag ++ "](tags.md#" ++ tag ++ ")"

/-- The mention link text built at lib.rs line 74: `[@name](mentions.md#name)`. -/
def mention_link (m : String) : String :=
  "[@" ++ m ++ "](mentions.md#" ++ m ++ ")"

/-- One tag rewrite step (lib.rs line 66):
`content.replace(format!("#{}", tag), tag_link)`. -/
def tagRewriteStep (content tag : String) : String :=
  strReplace content ("#" ++ tag) (tag_link tag)

/-- One mention rewrite step (lib.rs line 75):
`content.replace(format!("@{}", mention), mention_link)`. -/
def mentionRewriteStep (content m : String) : String :=
  strReplace content ("@" ++ m) (mention_link m)

/-- Model of `HashMap<String, Vec<String>>` as an insertion-ordered
association list. -/
abbrev IndexTable := List (String × List String)

/-- Model of `map.entry(k).or_default().push(v)`: append `v` to the entry for
`k`, creating the entry (at the end, preserving insertion order) if absent. -/
def pushEntry (m : IndexTable) (k : String) (v : String) : IndexTable :=
  match m with
  | [] => [(k, [v])]
  | (k0, vs) :: rest =>
    if k0 = k then (k0, vs ++ [v]) :: rest else (k0, vs) :: pushEntry rest k v

/-- Lookup of a key's stored document list (empty when absent). -/
def getEntry (m : IndexTable) (k : String) : List String :=
  match m with
  | [] => []
  | (k0, vs) :: rest => if k0 = k then vs else getEntry rest k

/-- The tag loop of `process_chapter` (lib.rs lines 63-70): iterate over the
tags extracted from the ORIGINAL content, progressively rewriting the text and
pushing the chapter path onto the tag table once per extracted occurrence. -/
def tagPhase (path content : String) (tags : IndexTable) : String × IndexTable :=
  (extract_prefix_items content '#').foldl
    (fun p tag => (tagRewriteStep p.1 tag, pushEntry p.2 tag path)) (content, tags)

/-- The mention loop of `process_chapter` (lib.rs lines 72-79): iterate over
the mentions extracted from the CURRENT (tag-rewritten) content, rewriting and
pushing the chapter path once per extracted occurrence. -/
def mentionPhase (path content : String) (mentions : IndexTable) : String × IndexTable :=
  (extract_prefix_items content '@').foldl
    (fun p m => (mentionRewriteStep p.1 m, pushEntry p.2 m path)) (content, mentions)

/-- `process_chapter` (lib.rs lines 56-82): run the tag loop on the chapter
content, then the mention loop on the tag-rewritten content; return the new
content (always `some`) and the two updated tables `(mentions, tags)`. -/
def process_chapter (path content : String) (mentions tags : IndexTable) :
    Option String × IndexTable × IndexTable :=
  let p1 := tagPhase path content tags
  let p2 := mentionPhase path p1.1 mentions
  (some p2.1, p2.2, p1.2)

/-- `chapter_path` (lib.rs lines 127-134): the chapter's path, or the empty
string when the chapter has no path (`unwrap_or_default` on `PathBuf`). -/
def chapter_path (path : Option String) : String :=
  path.getD ""

/-- Model of `mdbook::book::BookItem`.  A chapter keeps its name, content,
optional source path and sub-items; the remaining mdBook chapter fields
(`number`, `source_path`, `parent_names`) are never read or written by the
preprocessor and are omitted. -/
inductive BookItem where
  | chapter (name : String) (content : String) (path : Option String)
      (subItems : List BookItem) : BookItem
  | separator : BookItem
  | partTitle (t : String) : BookItem

/-- Model of `mdbook::book::Book`: the ordered list of top-level items. -/
structure Book where
  sections : List BookItem

mutual

/-- One step of `Book::for_each_mut` as used by `collect_mentions_and_tags`
(lib.rs lines 39-54): for a chapter, first recurse into its sub-items
(mdBook's `for_each_mut` visits sub-items before the item itself), then apply
`process_chapter` to the chapter, storing the returned content; separators and
part titles are untouched.  The state `(mentions, tags)` is threaded through. -/
def processItem : BookItem → IndexTable × IndexTable → BookItem × (IndexTable × IndexTable)
  | .chapter name content path subs, st =>
    let s := processItems subs st
    let r := process_chapter (chapter_path path) content s.2.1 s.2.2
    (.chapter name (r.1.getD content) path s.1, (r.2.1, r.2.2))
  | .separator, st => (.separator, st)
  | .partTitle t, st => (.partTitle t, st)

/-- `for_each_mut` over a list of items, in order, threading the tables. -/
def processItems : List BookItem → IndexTable × IndexTable → List BookItem × (IndexTable × IndexTable)
  | [], st => ([], st)
  | it :: rest, st =>
    let r1 := processItem it st
    let r2 := processItems rest r1.2
    (r1.1 :: r2.1, r2.2)

end

/-- The per-entry section built inside `generate_index` (lib.rs lines 97-104):
`## <prefix><name>` then one `- [page](page)` line per stored identifier,
joined by newlines, with a trailing newline. -/
def renderEntry (pfx : String) (e : String × List String) : String :=
  let entries := String.intercalate "\n"
    (e.2.map (fun page => "- [" ++ page ++ "](" ++ page ++ ")"))
  "## " ++ pfx ++ e.1 ++ "\n" ++ entries ++ "\n"

/-- `generate_index` (lib.rs lines 94-109): fold the per-entry sections onto
the initial `# <title>` heading. -/
def generate_index (title pfx : String) (index : IndexTable) : String :=
  (index.map (renderEntry pfx)).foldl
    (fun md sec => md ++ sec) ("# " ++ title ++ "\n\n")

/-- Concatenation of all rendered entry sections, in table order; used to
state what the `generate_index` fold produces. -/
def renderEntries (pfx : String) : IndexTable → String
  | [] => ""
  | e :: rest => renderEntry pfx e ++ renderEntries pfx rest

/-- `add_index_chapter` (lib.rs lines 111-125): push a new chapter whose name
and path are the given fixed path and whose content is the rendered index
(`Chapter::new` sets `path = Some(path)` and empty sub-items). -/
def add_index_chapter (book : Book) (path title pfx : String) (index : IndexTable) : Book :=
  { sections := book.sections ++
      [.chapter path (generate_index title pfx index) (some path) []] }

/-- Model of `mdbook::preprocess::PreprocessorContext`: only carries data the
preprocessor could look at; `run` ignores it entirely (`_ctx`). -/
structure PreprocessorContext where
  root : String
  renderer : String

/-- The effectful core of `Indexer::run` (lib.rs lines 22-32): process every
existing item (collecting the mention and tag tables), then append the tags
index chapter and the mentions index chapter. -/
def runCore (book : Book) : Book :=
  let r := processItems book.sections ([], [])
  add_index_chapter
    (add_index_chapter { sections := r.1 } "tags.md" "Tags" "#" r.2.2)
    "mentions.md" "Mentions" "@" r.2.1

/-- `Indexer::run` (lib.rs lines 22-32): always wraps the updated book in
`Ok`. -/
def run (_ctx : PreprocessorContext) (book : Book) : Except String Book :=
  Except.ok (runCore book)

/-- `Indexer::supports_renderer` (lib.rs lines 34-36). -/
def supports_renderer (renderer : String) : Bool :=
  renderer != "not-supported"

/-- The content of the first item of a section list, when it is a chapter. -/
def firstContent (items : List BookItem) : String :=
  match items with
  | .chapter _ c _ _ :: _ => c
  | _ => ""

/-- The content of the first chapter of a book. -/
def firstChapterContent (b : Book) : String :=
  firstContent b.sections

/-- Number of positions of `s` at which the pattern `pat` occurs as a
substring (all positions, counted independently). -/
def countSubstr (s pat : String) : Nat :=
  ((List.range (s.data.length + 1)).filter
    (fun i => pat.data.isPrefixOf (s.data.drop i))).length

/-- Spec-side (§4.2): the decomposition of a text at every leftmost,
non-overlapping occurrence of a pattern; the pieces between occurrences, in
order.  `fuel` mirrors `replaceAllAux` and is initialised to the text
length. -/
def splitOnSubstrAux (pat : List Char) : Nat → List Char → List (List Char)
  | 0, s => [s]
  | _ + 1, [] => [[]]
  | fuel + 1, c :: rest =>
    if pat.isPrefixOf (c :: rest) ∧ pat ≠ [] then
      [] :: splitOnSubstrAux pat fuel ((c :: rest).drop pat.length)
    else
      let ws := splitOnSubstrAux pat fuel rest
      (c :: ws.headD []) :: ws.tail

/-- Spec-side formalisation of the Rewriter contract (§4.2): "produce new text
where the literal substring `prefixChar + name` is replaced, at every position
it occurs in the text, by a Markdown-style link" — split the text at every
occurrence of the pattern and rejoin the pieces with the replacement text in
between. -/
def specReplaceEverywhere (s pat rep : String) : String :=
  String.mk (List.intercalate rep.data (splitOnSubstrAux pat.data s.data.length s.data))

mutual

/-- Structural frame comparison of book items: equal names, paths, kinds and
(recursively) sub-item structure, ignoring only chapter contents. -/
def frameEq : BookItem → BookItem → Bool
  | .chapter n _ p subs, .chapter n2 _ p2 subs2 =>
      n == n2 && p == p2 && frameEqList subs subs2
  | .separator, .separator => true
  | .partTitle t, .partTitle t2 => t == t2
  | _, _ => false

/-- `frameEq` on item lists, position by position. -/
def frameEqList : List BookItem → List BookItem → Bool
  | [], [] => true
  | a :: l1, b :: l2 => frameEq a b && frameEqList l1 l2
  | _, _ => false

end

/-! ## Helper lemmas -/

theorem splitOnPred_ne_nil (p : Char → Bool) (l : List Char) :
    splitOnPred p l ≠ [] := by
  cases l with
  | nil => simp [splitOnPred]
  | cons c rest =>
    simp only [splitOnPred]
    split <;> simp

theorem mem_splitOnPred (p : Char → Bool) :
    ∀ (l : List Char) (w : List Char), w ∈ splitOnPred p l → ∀ c ∈ w, p c = false := by
  intro l
  induction l with
  | nil =>
    intro w hw c hc
    simp [splitOnPred] at hw
    subst hw
    simp at hc
  | cons a rest ih =>
    intro w hw c hc
    rcases hpa : p a with _ | _
    · obtain ⟨w0, ws, hws⟩ := List.exists_cons_of_ne_nil (splitOnPred_ne_nil p rest)
      simp only [splitOnPred, hpa, Bool.false_eq_true, if_false, hws] at hw
      simp only [List.headD_cons, List.tail_cons] at hw
      rcases List.mem_cons.mp hw with rfl | hwmem
      · rcases List.mem_cons.mp hc with rfl | hc0
        · exact hpa
        · exact ih w0 (hws ▸ List.mem_cons_self w0 ws) c hc0
      · exact ih w (hws ▸ List.mem_cons_of_mem w0 hwmem) c hc
    · simp only [splitOnPred, hpa, if_true] at hw
      rcases List.mem_cons.mp hw with rfl | hwmem
      · simp at hc
      · exact ih w hwmem c hc

theorem getEntry_pushEntry (m : IndexTable) (k v k2 : String) :
    getEntry (pushEntry m k v) k2 =
      if k = k2 then getEntry m k2 ++ [v] else getEntry m k2 := by
  induction m with
  | nil =>
    simp only [pushEntry, getEntry]
    split <;> simp
  | cons hd m ih =>
    obtain ⟨k0, vs⟩ := hd
    simp only [pushEntry]
    by_cases h0 : k0 = k
    · subst h0
      simp only [if_pos rfl, getEntry]
      split <;> simp_all
    · simp only [if_neg h0, getEntry, ih]
      by_cases h2 : k0 = k2
      · subst h2
        have : ¬ k = k0 := fun h => h0 h.symm
        simp [this]
      · simp [h2]

theorem foldl_push_getEntry (g : String → String → String) (path : String) :
    ∀ (items : List String) (content : String) (tbl : IndexTable) (name : String),
      getEntry
        ((items.foldl (fun p it => (g p.1 it, pushEntry p.2 it path)) (content, tbl)).2)
        name
        = getEntry tbl name ++ List.replicate (items.count name) path := by
  intro items
  induction items with
  | nil => intro content tbl name; simp
  | cons x items ih =>
    intro content tbl name
    simp only [List.foldl_cons]
    rw [ih (g content x) (pushEntry tbl x path) name, getEntry_pushEntry]
    by_cases hx : x = name
    · subst hx
      simp [List.count_cons, List.replicate_succ, List.append_assoc]
    · have hnx : ¬ name = x := fun h => hx h.symm
      simp [List.count_cons, hx, hnx]

/-! ## Claims -/

/-- C1 counterexample: on the spec's own scenario (`chapter1.md`, body
`"See #alpha and @bob, also #alpha again."`) the rewritten body does NOT
contain exactly two substitutions `[#alpha](tags.md#alpha)`: the tag `alpha`
is extracted twice, the second blind global replace re-wraps the link text
produced by the first, and the link substring ends up occurring four times. -/
theorem C1_two_substitutions_refuted :
    countSubstr
        ((process_chapter "chapter1.md" "See #alpha and @bob, also #alpha again." [] []).1.getD "")
        "[#alpha](tags.md#alpha)" = 4
    ∧ (4 : Nat) ≠ 2 := by
  constructor
  · decide
  · decide

/-- C1 amended: the scenario yields Tags table
`{"alpha" ↦ ["chapter1.md", "chapter1.md"]}` and Mentions table
`{"bob" ↦ ["chapter1.md"]}` as claimed, but the rewritten body carries the
`#alpha` link substitution doubly nested (four occurrences of the link
substring, two per original occurrence) and exactly one `@bob`
substitution. -/
theorem C1_scenario_amended :
    (processItems
        [.chapter "Chapter 1" "See #alpha and @bob, also #alpha again." (some "chapter1.md") []]
        ([], [])).2.2 = [("alpha", ["chapter1.md", "chapter1.md"])]
    ∧ (processItems
        [.chapter "Chapter 1" "See #alpha and @bob, also #alpha again." (some "chapter1.md") []]
        ([], [])).2.1 = [("bob", ["chapter1.md"])]
    ∧ firstContent (processItems
        [.chapter "Chapter 1" "See #alpha and @bob, also #alpha again." (some "chapter1.md") []]
        ([], [])).1
      = "See [[#alpha](tags.md#alpha)](tags.md[#alpha](tags.md#alpha)) and [@bob](mentions.md#bob), also [[#alpha](tags.md#alpha)](tags.md[#alpha](tags.md#alpha)) again."
    ∧ countSubstr (firstContent (processItems
        [.chapter "Chapter 1" "See #alpha and @bob, also #alpha again." (some "chapter1.md") []]
        ([], [])).1) "[@bob](mentions.md#bob)" = 1 := by
  refine ⟨by decide, by decide, by decide, by decide⟩

/-- C3 counterexample: for the document `"#a@b"` (path `c.md`), the mention
table receives one entry for name `b`, yet the Tokenizer finds zero
occurrences of `@b` in the original pre-rewrite text — mention discovery runs
on the tag-rewritten text, where the inserted link `[#a](tags.md#a)` has
turned `a@b` into a word starting with `@`. -/
theorem C3_mention_count_refuted :
    getEntry (process_chapter "c.md" "#a@b" [] []).2.1 "b" = ["c.md"]
    ∧ (extract_prefix_items "#a@b" '@').count "b" = 0
    ∧ (getEntry (process_chapter "c.md" "#a@b" [] []).2.1 "b").length
        ≠ (extract_prefix_items "#a@b" '@').count "b" := by
  refine ⟨by decide, by decide, by decide⟩

/-- C3 amended: for every document and name, the identifiers appended to the
tag table equal (in number) the Tokenizer's occurrences of the name in the
ORIGINAL text, while the identifiers appended to the mention table equal the
Tokenizer's occurrences in the TAG-REWRITTEN text (the text state at mention
discovery time), not the original text. -/
theorem C3_counts_amended :
    ∀ (path content name : String) (tags mentions : IndexTable),
      getEntry (tagPhase path content tags).2 name
          = getEntry tags name
            ++ List.replicate ((extract_prefix_items content '#').count name) path
      ∧ getEntry (mentionPhase path (tagPhase path content tags).1 mentions).2 name
          = getEntry mentions name
            ++ List.replicate
                ((extract_prefix_items (tagPhase path content tags).1 '@').count name) path := by
  intro path content name tags mentions
  constructor
  · exact foldl_push_getEntry tagRewriteStep path
      (extract_prefix_items content '#') content tags name
  · exact foldl_push_getEntry mentionRewriteStep path
      (extract_prefix_items (tagPhase path content tags).1 '@')
      (tagPhase path content tags).1 mentions name

/-- C5: the pipeline is not idempotent — for a book with one chapter `"#a"`,
the second run re-discovers `#a` inside the link text emitted by the first run
and wraps it again: the first run's body holds the link once, the second run's
body holds it twice (nested). -/
theorem C5_not_idempotent :
    ∃ b : Book,
      firstChapterContent (runCore (runCore b)) ≠ firstChapterContent (runCore b)
      ∧ countSubstr (firstChapterContent (runCore b)) "[#a](tags.md#a)" = 1
      ∧ countSubstr (firstChapterContent (runCore (runCore b))) "[#a](tags.md#a)" = 2 := by
  refine ⟨{ sections := [.chapter "c" "#a" (some "c.md") []] }, ?_, ?_, ?_⟩
  · decide
  · decide
  · decide

/-- C8: `supports_renderer` returns `false` exactly for the renderer name
`"not-supported"` and `true` for every other string. -/
theorem C8_renderer_support :
    supports_renderer "not-supported" = false
    ∧ ∀ r : String, r ≠ "not-supported" → supports_renderer r = true := by
  constructor
  · decide
  · intro r h
    exact bne_iff_ne.mpr h

/-- Witness for C8 at the concrete renderer `"html"`. -/
theorem C8_renderer_support_witness :
    ("html" : String) ≠ "not-supported" ∧ supports_renderer "html" = true :=
  ⟨by decide, C8_renderer_support.2 "html" (by decide)⟩

/-- C9: `run` is total and always returns the success variant `Ok` with the
updated book; no context or book reaches the error channel. -/
theorem C9_run_total (ctx : PreprocessorContext) (b : Book) :
    ∃ b2, run ctx b = Except.ok b2 :=
  ⟨runCore b, rfl⟩

/-- C10: a chapter without a source path is recorded under the empty-string
identifier (`unwrap_or_default`); two pathless draft chapters both containing
`#t` aggregate under `""`, and the rendered index shows one `- []()` line per
recorded occurrence. -/
theorem C10_pathless_empty_identifier :
    chapter_path none = ""
    ∧ (processItems
        [.chapter "Draft" "#t" none [], .chapter "Draft2" "#t" none []]
        ([], [])).2.2 = [("t", ["", ""])]
    ∧ generate_index "Tags" "#" [("t", ["", ""])]
        = "# Tags\n\n## #t\n- []()\n- []()\n"
    ∧ countSubstr (generate_index "Tags" "#" [("t", ["", ""])]) "- []()" = 2 := by
  refine ⟨rfl, by decide, by decide, by decide⟩

/-- C4 counterexample: the Tokenizer does NOT guarantee "no leading or
trailing marker-prefix character" nor "exactly one leading prefix character":
the word `##x` starts with two `#` yet is a candidate, yielding the name `#x`
with a leading prefix character, and `#x#` yields the name `x#` with a
trailing one (`strip_prefix` removes exactly one leading character, and the
prefix character is excluded from the split set). -/
theorem C4_boundary_refuted :
    extract_prefix_items "##x" '#' = ["#x"]
    ∧ extract_prefix_items "#x#" '#' = ["x#"] := by
  refine ⟨by decide, by decide⟩

/-- C4 amended: every extracted name is non-empty and contains no whitespace
and no ASCII punctuation other than the prefix character itself (which may
appear anywhere in the name, including first or last position); a word is a
candidate iff it starts with a (at least one) leading prefix character and the
remainder after stripping exactly one of them is non-empty, that remainder
verbatim being the name; names appear in occurrence order with duplicates. -/
theorem C4_names_amended :
    (∀ (text : String) (pfx : Char) (name : String),
        name ∈ extract_prefix_items text pfx →
          name ≠ "" ∧ name.data.all (fun c => !(sepChar pfx c)) = true)
    ∧ (∀ (pfx : Char) (word n : List Char),
        candidateName pfx word = some n ↔ word = pfx :: n ∧ n ≠ [])
    ∧ extract_prefix_items "#b #a #b" '#' = ["b", "a", "b"] := by
  refine ⟨?_, ?_, by decide⟩
  · intro text pfx name hmem
    simp only [extract_prefix_items, List.mem_filterMap] at hmem
    obtain ⟨w, hw, heq⟩ := hmem
    cases hc : candidateName pfx w with
    | none => simp [hc] at heq
    | some rest =>
      simp only [hc, Option.map_some'] at heq
      cases w with
      | nil => simp [candidateName] at hc
      | cons c0 w0 =>
        simp only [candidateName] at hc
        by_cases h0 : c0 = pfx ∧ w0 ≠ []
        · rw [if_pos h0] at hc
          cases hc
          cases heq
          constructor
          · intro habs
            exact h0.2 (by simpa [String.ext_iff] using habs)
          · rw [List.all_eq_true]
            intro c hcmem
            have hsep := mem_splitOnPred (sepChar pfx) text.data (c0 :: rest) hw c
              (List.mem_cons_of_mem c0 hcmem)
            simp [hsep]
        · rw [if_neg h0] at hc
          cases hc
  · intro pfx word n
    cases word with
    | nil => simp [candidateName]
    | cons c0 w0 =>
      simp only [candidateName]
      by_cases h0 : c0 = pfx ∧ w0 ≠ []
      · rw [if_pos h0]
        constructor
        · intro h
          cases h
          exact ⟨by rw [h0.1], h0.2⟩
        · intro h
          obtain ⟨h1, -⟩ := h
          cases h1
          rfl
      · rw [if_neg h0]
        constructor
        · intro h
          cases h
        · intro h
          obtain ⟨h1, h2⟩ := h
          cases h1
          exact absurd ⟨rfl, h2⟩ h0

/-- Witness for C4 amended, at the text `"See #alpha."` and name `"alpha"`. -/
theorem C4_names_amended_witness :
    ("alpha" ∈ extract_prefix_items "See #alpha." '#')
    ∧ (("alpha" : String) ≠ ""
        ∧ "alpha".data.all (fun c => !(sepChar '#' c)) = true) :=
  ⟨by decide, C4_names_amended.1 "See #alpha." '#' "alpha" (by decide)⟩

theorem generate_index_foldl (pfx : String) :
    ∀ (tbl : IndexTable) (init : String),
      (tbl.map (renderEntry pfx)).foldl (fun md sec => md ++ sec) init
        = init ++ renderEntries pfx tbl := by
  intro tbl
  induction tbl with
  | nil => intro init; simp [renderEntries]
  | cons e rest ih =>
    intro init
    simp only [List.map_cons, List.foldl_cons, renderEntries]
    rw [ih, String.append_assoc]

/-- C6: the rendered index starts with the `# <title>` heading followed by a
blank line and then, for each table entry in iteration order, a
`## <prefix><name>` section with one `- [id](id)` line per stored identifier
(duplicates kept); the concrete table `{x ↦ [a.md, b.md]}` with title `Tags`
renders exactly as claimed, and an empty table renders only the title
heading. -/
theorem C6_index_rendering :
    (∀ (title pfx : String) (tbl : IndexTable),
        generate_index title pfx tbl = "# " ++ title ++ "\n\n" ++ renderEntries pfx tbl)
    ∧ generate_index "Tags" "#" [("x", ["a.md", "b.md"])]
        = "# Tags\n\n## #x\n- [a.md](a.md)\n- [b.md](b.md)\n"
    ∧ (∀ title pfx : String, generate_index title pfx [] = "# " ++ title ++ "\n\n") := by
  refine ⟨?_, by decide, ?_⟩
  · intro title pfx tbl
    exact generate_index_foldl pfx tbl _
  · intro title pfx
    rfl

theorem splitOnSubstrAux_ne_nil (pat : List Char) :
    ∀ (fuel : Nat) (s : List Char), splitOnSubstrAux pat fuel s ≠ [] := by
  intro fuel
  cases fuel with
  | zero => intro s; simp [splitOnSubstrAux]
  | succ fuel =>
    intro s
    cases s with
    | nil => simp [splitOnSubstrAux]
    | cons c rest =>
      simp only [splitOnSubstrAux]
      split <;> simp

theorem intercalate_nil_cons (rep w0 : List Char) (ws : List (List Char)) :
    List.intercalate rep ([] :: w0 :: ws) = rep ++ List.intercalate rep (w0 :: ws) := by
  simp [List.intercalate, List.intersperse_cons_cons]

theorem intercalate_cons_of_cons (rep : List Char) (c : Char) (w : List Char)
    (ws : List (List Char)) :
    List.intercalate rep ((c :: w) :: ws) = c :: List.intercalate rep (w :: ws) := by
  cases ws with
  | nil => simp [List.intercalate]
  | cons y ys => simp [List.intercalate, List.intersperse_cons_cons]

theorem replaceAllAux_eq_intercalate (pat rep : List Char) :
    ∀ (fuel : Nat) (s : List Char),
      replaceAllAux pat rep fuel s
        = List.intercalate rep (splitOnSubstrAux pat fuel s) := by
  intro fuel
  induction fuel with
  | zero => intro s; simp [replaceAllAux, splitOnSubstrAux, List.intercalate]
  | succ fuel ih =>
    intro s
    cases s with
    | nil => simp [replaceAllAux, splitOnSubstrAux, List.intercalate]
    | cons c rest =>
      simp only [replaceAllAux, splitOnSubstrAux]
      split
      · obtain ⟨w0, ws, hws⟩ := List.exists_cons_of_ne_nil
          (splitOnSubstrAux_ne_nil pat fuel ((c :: rest).drop pat.length))
        rw [hws, intercalate_nil_cons, ← hws, ih]
      · obtain ⟨w0, ws, hws⟩ := List.exists_cons_of_ne_nil
          (splitOnSubstrAux_ne_nil pat fuel rest)
        rw [hws]
        simp only [List.headD_cons, List.tail_cons]
        rw [intercalate_cons_of_cons, ← hws, ih]

/-- C2: one rewrite step is a blind global substring replace — for every
content and name, replacing `#name` (resp. `@name`) yields exactly the text
obtained by splitting at every (leftmost, non-overlapping) occurrence of the
literal pattern and rejoining with the link `[#name](tags.md#name)` (resp.
`[@name](mentions.md#name)`); it is not bounded by token boundaries, as the
corruption of `#ab` when replacing name `a` shows. -/
theorem C2_rewrite_step_global (content name : String) :
    tagRewriteStep content name
        = specReplaceEverywhere content ("#" ++ name) (tag_link name)
    ∧ mentionRewriteStep content name
        = specReplaceEverywhere content ("@" ++ name) (mention_link name)
    ∧ tagRewriteStep "#ab" "a" = "[#a](tags.md#a)b" := by
  refine ⟨?_, ?_, by decide⟩
  · exact congrArg String.mk
      (replaceAllAux_eq_intercalate ("#" ++ name).data (tag_link name).data
        content.data.length content.data)
  · exact congrArg String.mk
      (replaceAllAux_eq_intercalate ("@" ++ name).data (mention_link name).data
        content.data.length content.data)

mutual

theorem processItem_frame : ∀ (it : BookItem) (st : IndexTable × IndexTable),
    frameEq it (processItem it st).1 = true
  | .chapter n c p subs, st => by
    simp only [processItem, frameEq, Bool.and_eq_true, beq_self_eq_true, true_and]
    exact processItems_frame subs st

  | .separator, st => by simp [processItem, frameEq]
  | .partTitle t, st => by simp [processItem, frameEq]

theorem processItems_frame : ∀ (its : List BookItem) (st : IndexTable × IndexTable),
    frameEqList its (processItems its st).1 = true
  | [], st => by simp [processItems, frameEqList]
  | it :: rest, st => by
    simp only [processItems, frameEqList, Bool.and_eq_true]
    exact ⟨processItem_frame it st, processItems_frame rest (processItem it st).2⟩

end

/-- C7: the pipeline returns the input tree with existing items kept in place
and order, every item's structure (kind, name, path, sub-item structure)
unchanged — only chapter contents may differ — and exactly the two index
chapters appended at the end, at paths `tags.md` and `mentions.md`, built from
the tables collected over the original sections only (so they are never
themselves scanned in the same run). -/
theorem C7_frame (b : Book) :
    (runCore b).sections
        = (processItems b.sections ([], [])).1
          ++ [.chapter "tags.md"
                (generate_index "Tags" "#" (processItems b.sections ([], [])).2.2)
                (some "tags.md") [],
              .chapter "mentions.md"
                (generate_index "Mentions" "@" (processItems b.sections ([], [])).2.1)
                (some "mentions.md") []]
    ∧ frameEqList b.sections (processItems b.sections ([], [])).1 = true := by
  constructor
  · simp [runCore, add_index_chapter]
  · exact processItems_frame b.sections ([], [])

end indexer_lib
